import Mathlib

/-!
Shallow embedding of the flag-resolution core of `qamel/generator/gen-cgo.go`
(the body of `createCgoFlags`, lines 139-175), together with proofs about it.

The embedding models:

* matching a line against `rxMakefile` (`^(\S+)\s*=\s*(.+)$`, leftmost-first
  semantics of Go's regexp engine) as `parseLine`;
* the scanner loop building `mapCompiler` (lines 139-147) as `parseSymbols`;
* `rxCompilerVar.FindAllString` (`\$\((\S+)\)`) as `findAllVars`;
* the substitution / `-Wa,-mbig-obj` patch / `strings.TrimSpace` pass
  (lines 154-166) as `resolveReferences`, parameterised by the order in which
  the Go `range` loop visits the map keys (unspecified by the language);
* the `#cgo` directive assembly (lines 169-175) as `cgoFlagsString`.

Tables are association lists with the keys kept unique by construction, so
that the Go map operations (lookup with zero-value default, overwrite) are
modelled exactly while the visit order of `range` stays an explicit parameter.
-/

namespace QamelGen

/-- Character class `\s` of Go's regexp engine (RE2): `[\t\n\f\r ]`. -/
def reSpace (c : Char) : Bool :=
  c = '\t' || c = '\n' || c = '\x0c' || c = '\r' || c = ' '

/-- Go's `unicode.IsSpace`, the character class used by `strings.TrimSpace`. -/
def goIsSpace (c : Char) : Bool :=
  c = '\t' || c = '\n' || c = '\x0b' || c = '\x0c' || c = '\r' || c = ' ' ||
  c.toNat = 0x85 || c.toNat = 0xA0 || c.toNat = 0x1680 ||
  (0x2000 ≤ c.toNat && c.toNat ≤ 0x200A) ||
  c.toNat = 0x2028 || c.toNat = 0x2029 || c.toNat = 0x202F ||
  c.toNat = 0x205F || c.toNat = 0x3000

/-- `strings.TrimSpace` on a list of characters: drop `unicode.IsSpace`
characters from both ends. -/
def trimSpaceList (l : List Char) : List Char :=
  ((l.dropWhile goIsSpace).reverse.dropWhile goIsSpace).reverse

/-- Continuation of the `rxMakefile` match after the `=` has been consumed:
the semantics of `\s*(.+)$` under leftmost-first matching, where `.` matches
any character except `\n` and `$` anchors at the end of the text.  Greedy
`\s*` takes the maximal whitespace run first and gives characters back one at
a time; `(.+)` must then cover the whole remainder, be non-empty and contain
no newline.  Returns the submatch of `(.+)`. -/
def tryValue (r : List Char) : Option (List Char) :=
  if r = [] then none
  else if r.dropWhile reSpace = [] then
    -- `r` is non-empty and all whitespace: greedy `\s*` backtracks one
    -- character, so `(.+)` matches exactly the last character, if legal
    if r.getLast?.getD ' ' = '\n' then none else some [r.getLast?.getD ' ']
  else if '\n' ∈ r.dropWhile reSpace then none
  else some (r.dropWhile reSpace)

/-- Backtracking over the key length for `^(\S+)\s*=\s*(.+)$`: greedy `\S+`
tries the key `cs.take a` for `a = A, A-1, …, 1` (where `A` is the length of
the maximal non-whitespace prefix); after the key, maximal whitespace must be
followed by `=`, then `tryValue` finishes the match. -/
def tryKeyLen (cs : List Char) : Nat → Option (List Char × List Char)
  | 0 => none
  | a + 1 =>
    if ((cs.drop (a + 1)).dropWhile reSpace).head? = some '=' then
      match tryValue ((cs.drop (a + 1)).dropWhile reSpace).tail with
      | some v => some (cs.take (a + 1), v)
      | none => tryKeyLen cs a
    else tryKeyLen cs a

/-- `rxMakefile.FindStringSubmatch`: the two capture groups of
`^(\S+)\s*=\s*(.+)$`, or `none` when the line does not match (in the source,
`len(parts) != 3` and the line is skipped). -/
def matchMakefile (cs : List Char) : Option (List Char × List Char) :=
  tryKeyLen cs (cs.takeWhile (fun c => !reSpace c)).length

/-- One line of the scanner loop: match against `rxMakefile` and return the
key/value pair, if any. -/
def parseLine (line : String) : Option (String × String) :=
  match matchMakefile line.data with
  | some (k, v) => some (String.mk k, String.mk v)
  | none => none

/-- The symbol table `mapCompiler`, as an association list whose keys are
unique by construction. -/
abbrev Table := List (String × String)

/-- Go map read `m[k]`: the stored value, or the zero value `""` when the key
is absent. -/
def lookupTable (t : Table) (k : String) : String :=
  match t.find? (fun p => p.1 == k) with
  | some p => p.2
  | none => ""

/-- Replace the value stored under `k`, leaving a table without `k`
unchanged (`createCgoFlags` only ever writes keys obtained from the map
itself, so no key is ever created by the substitution pass). -/
def updateKey (t : Table) (k v : String) : Table :=
  t.map fun p => if p.1 == k then (k, v) else p

/-- Go map write `m[k] = v`: overwrite if present, insert otherwise. -/
def setKey (t : Table) (k v : String) : Table :=
  if t.any (fun p => p.1 == k) then updateKey t k v else t ++ [(k, v)]

/-- The scanner loop of `createCgoFlags` (lines 139-147): build `mapCompiler`
from the makefile lines, skipping lines that do not match `rxMakefile`. -/
def parseSymbols (lines : List String) : Table :=
  lines.foldl
    (fun t line =>
      match parseLine line with
      | some (k, v) => setKey t k v
      | none => t) []

/-- Index of the last `)` in `run`, if any. -/
def lastRparen (run : List Char) : Option Nat :=
  match run.reverse.findIdx? (fun c => c == ')') with
  | some j => some (run.length - 1 - j)
  | none => none

/-- Scanner behind `rxCompilerVar.FindAllString` (`\$\((\S+)\)`): when `skip`
is positive, that many characters (the tail of the previous match) are
consumed before scanning resumes.  A match starting at `$` `(` extends over
the maximal run of non-whitespace characters that follows, up to the last `)`
inside that run (greedy `\S+` with backtracking), which must leave at least
one character for `\S+`; matches are non-overlapping and found left to
right. -/
def findAllVarsGo : Nat → List Char → List (List Char)
  | _ + 1, [] => []
  | skip + 1, _ :: rest => findAllVarsGo skip rest
  | 0, [] => []
  | 0, '$' :: '(' :: rest2 =>
    -- on a failed match the engine resumes one character later, at the `(`;
    -- since `(` can never start a match, resuming at `rest2` is equivalent
    (match lastRparen (rest2.takeWhile (fun ch => !reSpace ch)) with
     | some m =>
       if 1 ≤ m then
         ('$' :: '(' :: (rest2.takeWhile (fun ch => !reSpace ch)).take (m + 1)) ::
           findAllVarsGo (m + 1) rest2
       else
         findAllVarsGo 0 rest2
     | none => findAllVarsGo 0 rest2)
  | 0, _ :: rest => findAllVarsGo 0 rest

/-- `rxCompilerVar.FindAllString(v, -1)`: all matches of `\$\((\S+)\)`. -/
def findAllVars (cs : List Char) : List (List Char) :=
  findAllVarsGo 0 cs

/-- `rxCompilerVar.ReplaceAllString(variable, "$1")` applied to a single
matched variable `$(` inner `)`: the whole variable is one match, so the
replacement is exactly the capture group — the characters between `$(` and
the final `)`. -/
def extractVarKey (v : List Char) : List Char :=
  (v.drop 2).dropLast

/-- Scanner behind `strings.Replace(s, pat, rep, -1)` for non-empty `pat`:
left-to-right, non-overlapping, and the replaced text is not rescanned.
`skip` counts characters of the current match still to be consumed. -/
def replaceAllGo (pat rep : List Char) : Nat → List Char → List Char
  | _ + 1, [] => []
  | skip + 1, _ :: rest => replaceAllGo pat rep skip rest
  | 0, [] => []
  | 0, c :: rest =>
    if pat.isPrefixOf (c :: rest) then
      rep ++ replaceAllGo pat rep (pat.length - 1) rest
    else
      c :: replaceAllGo pat rep 0 rest

/-- `strings.Replace(s, pat, rep, -1)`.  The source only ever calls this with
the non-empty patterns `" -Wa,-mbig-obj "` and a matched `$(X)` string, so
Go's special behaviour on an empty pattern is irrelevant and not modelled. -/
def replaceAll (s pat rep : List Char) : List Char :=
  if pat = [] then s else replaceAllGo pat rep 0 s

/-- The literal pattern removed by the toolchain patch (line 164). -/
def bigObjPattern : List Char :=
  " -Wa,-mbig-obj ".data

/-- The inner loop of the substitution pass (lines 155-160): extract all
`$(X)` matches from the original value, then for each match in order replace
every occurrence of that literal `$(X)` by the value currently stored under
`X` (the zero value `""` when `X` is absent from the table). -/
def substituteVars (t : Table) (v : List Char) : List Char :=
  (findAllVars v).foldl
    (fun acc varMatch =>
      replaceAll acc varMatch (lookupTable t (String.mk (extractVarKey varMatch))).data)
    v

/-- One iteration of `for flagKey, flagValue := range mapCompiler`
(lines 154-166): substitution, the `-Wa,-mbig-obj` patch, `TrimSpace`, and
the in-place write `mapCompiler[flagKey] = …`.  A key absent from the table
is a no-op (Go's `range` never yields such a key). -/
def resolveStep (t : Table) (k : String) : Table :=
  match t.find? (fun p => p.1 == k) with
  | none => t
  | some p =>
    let v1 := substituteVars t p.2.data
    let v2 := replaceAll v1 bigObjPattern " ".data
    updateKey t k (String.mk (trimSpaceList v2))

/-- The whole substitution pass (lines 154-166).  Go iterates over the map in
an unspecified order; `order` makes that visit order explicit. -/
def resolveReferences (order : List String) (t : Table) : Table :=
  order.foldl resolveStep t

/-- The patch-and-trim tail of `resolveStep`, applied to a single value:
remove every `" -Wa,-mbig-obj "` occurrence, then `TrimSpace`. -/
def patchTrim (v : String) : String :=
  String.mk (trimSpaceList (replaceAll v.data bigObjPattern " ".data))

/-- Assembly of the `#cgo` directives (lines 169-175): five lines sourced
from the fixed keys `CFLAGS`, `CXXFLAGS`, `INCPATH`, `LFLAGS`, `LIBS`, then
two fixed warning-suppression lines.  `fmt.Sprintf("…%s\n", …)` and
`fmt.Sprintln` end each of the first six lines with a newline; the final
`fmt.Sprint` adds none. -/
def cgoFlagsString (t : Table) : String :=
  "#cgo CFLAGS: " ++ lookupTable t "CFLAGS" ++ "\n" ++
  "#cgo CXXFLAGS: " ++ lookupTable t "CXXFLAGS" ++ "\n" ++
  "#cgo CXXFLAGS: " ++ lookupTable t "INCPATH" ++ "\n" ++
  "#cgo LDFLAGS: " ++ lookupTable t "LFLAGS" ++ "\n" ++
  "#cgo LDFLAGS: " ++ lookupTable t "LIBS" ++ "\n" ++
  "#cgo CFLAGS: -Wno-unused-parameter -Wno-unused-variable -Wno-return-type" ++ "\n" ++
  "#cgo CXXFLAGS: -Wno-unused-parameter -Wno-unused-variable -Wno-return-type"

/-- Split a character list at newline characters; used to state the line
structure of `cgoFlagsString`. -/
def splitLines : List Char → List (List Char)
  | [] => [[]]
  | c :: rest =>
    if c = '\n' then [] :: splitLines rest
    else
      match splitLines rest with
      | [] => [[c]]
      | l :: ls => (c :: l) :: ls

/-- Values of a table are all free of the character `x`. -/
def ValuesFree (x : Char) (t : Table) : Prop :=
  ∀ p ∈ t, x ∉ p.2.data

/-- No value of the table contains a `$`, hence no value contains a variable
reference. -/
def NoRef (t : Table) : Prop :=
  ValuesFree '$' t

/-- The three-entry reference chain `{A: $(B), B: $(C), C: x}`. -/
def chainTable : Table :=
  [("A", "$(B)"), ("B", "$(C)"), ("C", "x")]

/-- The end-to-end example input lines. -/
def endToEndLines : List String :=
  ["CFLAGS = -O2", "CXXFLAGS = -std=c++11", "INCPATH = -I/usr/include/qt",
   "LFLAGS = -L/usr/lib", "LIBS = -lQt5Core $(EXTRA)"]

end QamelGen

namespace QamelGen

/-! ### Helper lemmas: characters that survive replacement and trimming -/

theorem replaceAllGo_succ (pat rep : List Char) (n : Nat) (c : Char) (rest : List Char) :
    replaceAllGo pat rep (n + 1) (c :: rest) = replaceAllGo pat rep n rest := rfl

theorem not_mem_replaceAllGo {x : Char} {pat rep : List Char} (hrep : x ∉ rep) :
    ∀ (l : List Char) (skip : Nat), x ∉ l → x ∉ replaceAllGo pat rep skip l := by
  intro l
  induction l with
  | nil => intro skip _; cases skip <;> simp [replaceAllGo]
  | cons c rest ih =>
    intro skip hl
    simp only [List.mem_cons, not_or] at hl
    cases skip with
    | succ n => rw [replaceAllGo_succ]; exact ih n hl.2
    | zero =>
      by_cases hp : pat.isPrefixOf (c :: rest)
      · simp only [replaceAllGo, hp, if_true, List.mem_append, not_or]
        exact ⟨hrep, ih _ hl.2⟩
      · simp only [replaceAllGo, hp, Bool.false_eq_true, if_false, List.mem_cons, not_or]
        exact ⟨hl.1, ih 0 hl.2⟩

theorem not_mem_replaceAll {x : Char} {s pat rep : List Char}
    (hs : x ∉ s) (hrep : x ∉ rep) : x ∉ replaceAll s pat rep := by
  unfold replaceAll
  by_cases hpat : pat = []
  · simpa [hpat] using hs
  · simpa [hpat] using not_mem_replaceAllGo hrep s 0 hs

theorem not_mem_trimSpaceList {x : Char} {l : List Char} (h : x ∉ l) :
    x ∉ trimSpaceList l := by
  intro hx
  apply h
  unfold trimSpaceList at hx
  rw [List.mem_reverse] at hx
  have hx2 := (List.dropWhile_sublist goIsSpace).mem hx
  rw [List.mem_reverse] at hx2
  exact (List.dropWhile_sublist goIsSpace).mem hx2

theorem not_mem_lookupTable {x : Char} {t : Table} (h : ValuesFree x t) (k : String) :
    x ∉ (lookupTable t k).data := by
  unfold lookupTable
  cases hf : t.find? (fun p => p.1 == k) with
  | none => simp
  | some p => exact h p (List.mem_of_find?_eq_some hf)

theorem not_mem_foldl_replaceAll {x : Char} {t : Table} (ht : ValuesFree x t) :
    ∀ (vars : List (List Char)) (acc : List Char), x ∉ acc →
      x ∉ vars.foldl
        (fun acc w => replaceAll acc w (lookupTable t (String.mk (extractVarKey w))).data)
        acc := by
  intro vars
  induction vars with
  | nil => intro acc h; simpa using h
  | cons w ws ih =>
    intro acc h
    simp only [List.foldl_cons]
    exact ih _ (not_mem_replaceAll h (not_mem_lookupTable ht _))

theorem not_mem_substituteVars {x : Char} {t : Table} {v : List Char}
    (ht : ValuesFree x t) (hv : x ∉ v) : x ∉ substituteVars t v :=
  not_mem_foldl_replaceAll ht (findAllVars v) v hv

theorem mem_updateKey {p : String × String} {t : Table} {k v : String}
    (h : p ∈ updateKey t k v) : p ∈ t ∨ p = (k, v) := by
  unfold updateKey at h
  obtain ⟨q, hq, hpq⟩ := List.mem_map.mp h
  by_cases hk : q.1 == k
  · right; rw [← hpq]; simp [hk]
  · left; rw [← hpq]; simpa [hk] using hq

theorem mem_setKey {p : String × String} {t : Table} {k v : String}
    (h : p ∈ setKey t k v) : p ∈ t ∨ p = (k, v) := by
  unfold setKey at h
  by_cases hc : t.any (fun p => p.1 == k)
  · exact mem_updateKey (by simpa [hc] using h)
  · rw [if_neg hc] at h
    rcases List.mem_append.mp h with h1 | h1
    · exact Or.inl h1
    · exact Or.inr (by simpa using h1)

theorem resolveStep_valuesFree {x : Char} {t : Table} (hx : x ≠ ' ')
    (ht : ValuesFree x t) (k : String) : ValuesFree x (resolveStep t k) := by
  unfold resolveStep
  cases hf : t.find? (fun p => p.1 == k) with
  | none => exact ht
  | some p =>
    intro q hq
    rcases mem_updateKey hq with hq1 | hq1
    · exact ht q hq1
    · rw [hq1]
      show x ∉ trimSpaceList _
      apply not_mem_trimSpaceList
      apply not_mem_replaceAll
      · exact not_mem_substituteVars ht (ht p (List.mem_of_find?_eq_some hf))
      · show x ∉ (" " : String).data
        intro hmem
        apply hx
        cases hmem with
        | head => rfl
        | tail _ h2 => cases h2

theorem resolveReferences_valuesFree {x : Char} {t : Table} (hx : x ≠ ' ')
    (ht : ValuesFree x t) (o : List String) : ValuesFree x (resolveReferences o t) := by
  induction o generalizing t with
  | nil => exact ht
  | cons k o' ih => exact ih (resolveStep_valuesFree hx ht k)

/-! ### Helper lemmas: keys and entries under the substitution pass -/

theorem keys_updateKey (t : Table) (k v : String) :
    (updateKey t k v).map Prod.fst = t.map Prod.fst := by
  unfold updateKey
  rw [List.map_map]
  apply List.map_congr_left
  intro p _
  by_cases hk : p.1 == k
  · simp only [Function.comp_apply, if_pos hk]
    exact (eq_of_beq hk).symm
  · simp only [Function.comp_apply, if_neg hk]

theorem keys_resolveStep (t : Table) (k : String) :
    (resolveStep t k).map Prod.fst = t.map Prod.fst := by
  cases hf : t.find? (fun p => p.1 == k) with
  | none => simp [resolveStep, hf]
  | some p => simp [resolveStep, hf, keys_updateKey]

theorem keys_resolveReferences (o : List String) (t : Table) :
    (resolveReferences o t).map Prod.fst = t.map Prod.fst := by
  induction o generalizing t with
  | nil => rfl
  | cons k o' ih =>
    simp only [resolveReferences, List.foldl_cons]
    rw [show List.foldl resolveStep (resolveStep t k) o'
          = resolveReferences o' (resolveStep t k) from rfl]
    rw [ih, keys_resolveStep]

theorem find?_cons_true {β : Type} (f : β → Bool) (a : β) (l : List β) (h : f a = true) :
    (a :: l).find? f = some a := by
  simp [List.find?, h]

theorem find?_cons_false {β : Type} (f : β → Bool) (a : β) (l : List β) (h : f a = false) :
    (a :: l).find? f = l.find? f := by
  simp [List.find?, h]

theorem find?_updateKey_ne {t : Table} {k k' v : String} (h : k' ≠ k) :
    (updateKey t k v).find? (fun p => p.1 == k') = t.find? (fun p => p.1 == k') := by
  induction t with
  | nil => rfl
  | cons q rest ih =>
    unfold updateKey
    simp only [List.map_cons]
    by_cases hq : q.1 == k
    · have hqk : q.1 = k := eq_of_beq hq
      have h1 : (((k, v) : String × String).1 == k') = false := by
        simp only [beq_eq_false_iff_ne]
        exact fun he => h he.symm
      have h2 : (q.1 == k') = false := by rw [hqk]; exact h1
      rw [if_pos hq,
        find?_cons_false (fun p => p.1 == k') (k, v) _ h1,
        find?_cons_false (fun p => p.1 == k') q rest h2]
      exact ih
    · rw [if_neg hq]
      by_cases hq' : q.1 == k'
      · rw [find?_cons_true (fun p => p.1 == k') q _ hq',
          find?_cons_true (fun p => p.1 == k') q rest hq']
      · have hq'f : (q.1 == k') = false := by
          simpa using hq'
        rw [find?_cons_false (fun p => p.1 == k') q _ hq'f,
          find?_cons_false (fun p => p.1 == k') q rest hq'f]
        exact ih

theorem find?_updateKey_self {t : Table} {k v : String} {p : String × String}
    (hf : t.find? (fun q => q.1 == k) = some p) :
    (updateKey t k v).find? (fun q => q.1 == k) = some (k, v) := by
  induction t with
  | nil => simp at hf
  | cons q rest ih =>
    unfold updateKey
    simp only [List.map_cons]
    by_cases hq : q.1 == k
    · rw [if_pos hq]
      exact find?_cons_true (fun q => q.1 == k) (k, v) _ (by simp)
    · have hqf : (q.1 == k) = false := by simpa using hq
      have hf' : rest.find? (fun q => q.1 == k) = some p := by
        rwa [find?_cons_false (fun q => q.1 == k) q rest hqf] at hf
      rw [if_neg hq, find?_cons_false (fun q => q.1 == k) q _ hqf]
      exact ih hf'

theorem resolveStep_find?_ne {t : Table} {k k' : String} (h : k' ≠ k) :
    (resolveStep t k).find? (fun p => p.1 == k') = t.find? (fun p => p.1 == k') := by
  cases hf : t.find? (fun p => p.1 == k) with
  | none => simp [resolveStep, hf]
  | some p =>
    simp only [resolveStep, hf]
    exact find?_updateKey_ne h

theorem resolveReferences_find?_not_mem {o : List String} {t : Table} {k : String}
    (h : k ∉ o) :
    (resolveReferences o t).find? (fun p => p.1 == k) = t.find? (fun p => p.1 == k) := by
  induction o generalizing t with
  | nil => rfl
  | cons k1 o' ih =>
    simp only [List.mem_cons, not_or] at h
    simp only [resolveReferences, List.foldl_cons]
    rw [show List.foldl resolveStep (resolveStep t k1) o'
          = resolveReferences o' (resolveStep t k1) from rfl]
    rw [ih h.2, resolveStep_find?_ne (fun he => h.1 he)]

theorem lookupTable_eq_empty {t : Table} {k : String} (h : k ∉ t.map Prod.fst) :
    lookupTable t k = "" := by
  unfold lookupTable
  have hnone : t.find? (fun p => p.1 == k) = none := by
    rw [List.find?_eq_none]
    intro p hp hpk
    exact h (List.mem_map.mpr ⟨p, hp, eq_of_beq hpk⟩)
  rw [hnone]

/-! ### Helper lemmas: parsed values are newline-free and non-empty -/

theorem tryValue_props {r v : List Char} (h : tryValue r = some v) :
    '\n' ∉ v ∧ v ≠ [] := by
  unfold tryValue at h
  by_cases hr : r = []
  · rw [if_pos hr] at h; cases h
  · rw [if_neg hr] at h
    by_cases h0 : r.dropWhile reSpace = []
    · rw [if_pos h0] at h
      by_cases hc : r.getLast?.getD ' ' = '\n'
      · rw [if_pos hc] at h; cases h
      · rw [if_neg hc] at h
        injection h with h'
        subst h'
        exact ⟨fun hm => hc (List.mem_singleton.mp hm).symm, by simp⟩
    · rw [if_neg h0] at h
      by_cases hn : '\n' ∈ r.dropWhile reSpace
      · rw [if_pos hn] at h; cases h
      · rw [if_neg hn] at h
        injection h with h'
        subst h'
        exact ⟨hn, h0⟩

theorem tryKeyLen_props {cs : List Char} {kv : List Char × List Char} :
    ∀ {a : Nat}, tryKeyLen cs a = some kv → '\n' ∉ kv.2 ∧ kv.2 ≠ [] := by
  intro a
  induction a with
  | zero => intro h; cases h
  | succ a ih =>
    intro h
    unfold tryKeyLen at h
    by_cases hc : ((cs.drop (a + 1)).dropWhile reSpace).head? = some '='
    · rw [if_pos hc] at h
      cases ht : tryValue ((cs.drop (a + 1)).dropWhile reSpace).tail with
      | some v =>
        rw [ht] at h
        injection h with h'
        rw [← h']
        exact tryValue_props ht
      | none => rw [ht] at h; exact ih h
    · rw [if_neg hc] at h; exact ih h

theorem parseLine_props {line : String} {k v : String}
    (h : parseLine line = some (k, v)) : '\n' ∉ v.data ∧ v ≠ "" := by
  unfold parseLine at h
  split at h
  · next k0 v0 heq =>
    injection h with h'
    obtain ⟨rfl, rfl⟩ := Prod.mk.injEq .. ▸ And.intro (congrArg Prod.fst h') (congrArg Prod.snd h')
    have hp := tryKeyLen_props heq
    refine ⟨hp.1, ?_⟩
    intro hv
    exact hp.2 (congrArg String.data hv)
  · cases h

theorem parseSymbols_foldl_values :
    ∀ (lines : List String) (t : Table),
      (∀ p ∈ t, '\n' ∉ p.2.data ∧ p.2 ≠ "") →
      ∀ p ∈ lines.foldl
          (fun t line =>
            match parseLine line with
            | some (k, v) => setKey t k v
            | none => t) t,
        '\n' ∉ p.2.data ∧ p.2 ≠ "" := by
  intro lines
  induction lines with
  | nil => intro t ht; exact ht
  | cons line rest ih =>
    intro t ht
    simp only [List.foldl_cons]
    apply ih
    cases hp : parseLine line with
    | none => simpa [hp] using ht
    | some kv =>
      obtain ⟨k, v⟩ := kv
      simp only [hp]
      intro p hpm
      rcases mem_setKey hpm with h1 | h1
      · exact ht p h1
      · rw [h1]
        exact parseLine_props hp

theorem parseSymbols_values {lines : List String} :
    ∀ p ∈ parseSymbols lines, '\n' ∉ p.2.data ∧ p.2 ≠ "" := by
  unfold parseSymbols
  exact parseSymbols_foldl_values lines [] (by simp)

/-! ### Helper lemmas: tables without references resolve order-independently -/

theorem findAllVarsGo_succ (n : Nat) (c : Char) (rest : List Char) :
    findAllVarsGo (n + 1) (c :: rest) = findAllVarsGo n rest := rfl

theorem findAllVarsGo_cons_ne (c : Char) (rest : List Char) (hc : c ≠ '$') :
    findAllVarsGo 0 (c :: rest) = findAllVarsGo 0 rest := by
  cases rest with
  | nil => simp [findAllVarsGo, hc]
  | cons d rest' =>
    cases rest' with
    | nil => simp [findAllVarsGo, hc]
    | cons e rest'' => simp [findAllVarsGo, hc]

theorem findAllVarsGo_of_not_mem {l : List Char} (h : '$' ∉ l) :
    ∀ skip, findAllVarsGo skip l = [] := by
  induction l with
  | nil => intro skip; cases skip <;> rfl
  | cons c rest ih =>
    intro skip
    have hc : c ≠ '$' := fun hx => h (hx ▸ List.mem_cons_self c rest)
    have hrest : '$' ∉ rest := fun hx => h (List.mem_cons_of_mem _ hx)
    cases skip with
    | succ n => rw [findAllVarsGo_succ]; exact ih hrest n
    | zero => rw [findAllVarsGo_cons_ne c rest hc]; exact ih hrest 0

theorem findAllVars_eq_nil {l : List Char} (h : '$' ∉ l) : findAllVars l = [] :=
  findAllVarsGo_of_not_mem h 0

theorem substituteVars_of_free {t : Table} {v : List Char} (h : '$' ∉ v) :
    substituteVars t v = v := by
  unfold substituteVars
  rw [findAllVars_eq_nil h]
  rfl

theorem patchTrim_free {v : String} (h : '$' ∉ v.data) :
    '$' ∉ (patchTrim v).data := by
  show '$' ∉ trimSpaceList (replaceAll v.data bigObjPattern (" " : String).data)
  exact not_mem_trimSpaceList (not_mem_replaceAll h (by decide))

theorem eq_of_mem_of_nodup_keys {t : Table} (hnd : (t.map Prod.fst).Nodup)
    {p q : String × String} (hp : p ∈ t) (hq : q ∈ t) (h : p.1 = q.1) : p = q := by
  induction t with
  | nil => cases hp
  | cons r rest ih =>
    rw [List.map_cons] at hnd
    have hnd' := List.nodup_cons.mp hnd
    rcases List.mem_cons.mp hp with hp1 | hp1 <;>
      rcases List.mem_cons.mp hq with hq1 | hq1
    · rw [hp1, hq1]
    · exfalso
      apply hnd'.1
      apply List.mem_map.mpr
      exact ⟨q, hq1, by rw [← h, hp1]⟩
    · exfalso
      apply hnd'.1
      apply List.mem_map.mpr
      exact ⟨p, hp1, by rw [h, hq1]⟩
    · exact ih hnd'.2 hp1 hq1

theorem find?_mem_of_mem_keys {t : Table} {k : String} (h : k ∈ t.map Prod.fst) :
    ∃ p, t.find? (fun q => q.1 == k) = some p ∧ p.1 = k ∧ p ∈ t := by
  induction t with
  | nil => simp at h
  | cons q rest ih =>
    by_cases hq : q.1 == k
    · exact ⟨q, find?_cons_true (fun q => q.1 == k) q rest hq, eq_of_beq hq,
        List.mem_cons_self q rest⟩
    · have hqf : (q.1 == k) = false := by simpa using hq
      have h0 : k ∈ q.1 :: rest.map Prod.fst := by
        rw [List.map_cons] at h
        exact h
      have h' : k ∈ rest.map Prod.fst := by
        rcases List.mem_cons.mp h0 with h1 | h1
        · exact absurd (beq_iff_eq.mpr h1.symm) hq
        · exact h1
      obtain ⟨p, hf, hk, hm⟩ := ih h'
      exact ⟨p, by rw [find?_cons_false (fun q => q.1 == k) q rest hqf]; exact hf,
        hk, List.mem_cons_of_mem _ hm⟩

theorem resolveStep_of_free {t : Table} {k : String} {p : String × String}
    (hf : t.find? (fun q => q.1 == k) = some p) (hp : '$' ∉ p.2.data) :
    resolveStep t k = updateKey t k (patchTrim p.2) := by
  unfold resolveStep
  rw [hf]
  dsimp only
  rw [substituteVars_of_free hp]
  rfl

/-- On a table whose values contain no `$`, the substitution pass just
patches and trims each visited value in place, whatever the visit order. -/
theorem resolve_eq_map_of_free :
    ∀ (o : List String) (t : Table), o.Nodup → (t.map Prod.fst).Nodup → NoRef t →
      resolveReferences o t
        = t.map (fun p => if p.1 ∈ o then (p.1, patchTrim p.2) else p) := by
  intro o
  induction o with
  | nil =>
    intro t _ _ _
    simp [resolveReferences]
  | cons k o' ih =>
    intro t hno hnd hnr
    have hno' : o'.Nodup := (List.nodup_cons.mp hno).2
    have hkno : k ∉ o' := (List.nodup_cons.mp hno).1
    rw [show resolveReferences (k :: o') t = resolveReferences o' (resolveStep t k)
      from rfl]
    by_cases hmem : k ∈ t.map Prod.fst
    · obtain ⟨p0, hf, hp0k, hp0mem⟩ := find?_mem_of_mem_keys hmem
      have hfree : '$' ∉ p0.2.data := hnr p0 hp0mem
      rw [resolveStep_of_free hf hfree]
      have hnd' : ((updateKey t k (patchTrim p0.2)).map Prod.fst).Nodup := by
        rw [keys_updateKey]; exact hnd
      have hnr' : NoRef (updateKey t k (patchTrim p0.2)) := by
        intro q hq
        rcases mem_updateKey hq with h1 | h1
        · exact hnr q h1
        · rw [h1]; exact patchTrim_free hfree
      rw [ih _ hno' hnd' hnr']
      unfold updateKey
      rw [List.map_map]
      apply List.map_congr_left
      intro p hp
      by_cases hpk : p.1 = k
      · have hpp0 : p = p0 := eq_of_mem_of_nodup_keys hnd hp hp0mem (by rw [hpk, hp0k])
        have hbeq : (p.1 == k) = true := beq_iff_eq.mpr hpk
        have hin : p.1 ∈ k :: o' := by rw [hpk]; exact List.mem_cons_self k o'
        simp only [Function.comp_apply, if_pos hbeq, if_pos hin]
        rw [if_neg (show ¬(((k, patchTrim p0.2) : String × String).1 ∈ o') from hkno)]
        rw [hpk, hpp0]
      · have hbeq : (p.1 == k) = false := by simpa using hpk
        simp only [Function.comp_apply, hbeq, Bool.false_eq_true, if_false]
        by_cases hm2 : p.1 ∈ o'
        · rw [if_pos hm2, if_pos (List.mem_cons_of_mem k hm2)]
        · rw [if_neg hm2, if_neg (show ¬(p.1 ∈ k :: o') from by
            simp [List.mem_cons, hpk, hm2])]
    · have hf : t.find? (fun q => q.1 == k) = none := by
        rw [List.find?_eq_none]
        intro p hp hpk
        exact hmem (List.mem_map.mpr ⟨p, hp, eq_of_beq hpk⟩)
      have hstep : resolveStep t k = t := by unfold resolveStep; rw [hf]
      rw [hstep, ih _ hno' hnd hnr]
      apply List.map_congr_left
      intro p hp
      have hpk : p.1 ≠ k := fun he => hmem (List.mem_map.mpr ⟨p, hp, he⟩)
      by_cases hm2 : p.1 ∈ o'
      · rw [if_pos hm2, if_pos (List.mem_cons_of_mem k hm2)]
      · rw [if_neg hm2, if_neg (show ¬(p.1 ∈ k :: o') from by
          simp [List.mem_cons, hpk, hm2])]

/-! ### Helper lemmas: lines with nothing after the `=` never match -/

theorem dropWhile_append_all {p : Char → Bool} {l1 : List Char}
    (h : ∀ c ∈ l1, p c = true) (l2 : List Char) :
    (l1 ++ l2).dropWhile p = l2.dropWhile p := by
  induction l1 with
  | nil => rfl
  | cons c l1' ih =>
    rw [List.cons_append, List.dropWhile_cons, h c (List.mem_cons_self c l1'), if_pos rfl]
    exact ih fun d hd => h d (List.mem_cons_of_mem _ hd)

theorem tryKeyLen_eq_none {kd wd : List Char}
    (hk : ∀ c ∈ kd, reSpace c = false ∧ c ≠ '=')
    (hw : ∀ c ∈ wd, reSpace c = true) :
    ∀ a, tryKeyLen (kd ++ (wd ++ ['='])) a = none := by
  intro a
  induction a with
  | zero => rfl
  | succ a ih =>
    unfold tryKeyLen
    rcases Nat.lt_or_ge (a + 1) kd.length with hlt | hge
    · have hdrop : (kd ++ (wd ++ ['='])).drop (a + 1)
          = kd[a + 1] :: (kd.drop (a + 2) ++ (wd ++ ['='])) := by
        rw [List.drop_append_of_le_length (Nat.le_of_lt hlt),
          List.drop_eq_getElem_cons hlt, List.cons_append]
      rw [hdrop, List.dropWhile_cons, (hk _ (List.getElem_mem hlt)).1]
      simp only [Bool.false_eq_true, if_false]
      rw [if_neg (by
        simp only [List.head?_cons, Option.some.injEq]
        exact (hk _ (List.getElem_mem hlt)).2)]
      exact ih
    · rcases Nat.lt_or_ge (a + 1) (kd.length + (wd.length + 1)) with hlt2 | hge2
      · have hsplit : a + 1 = kd.length + (a + 1 - kd.length) := by omega
        have hdrop : (kd ++ (wd ++ ['='])).drop (a + 1)
            = wd.drop (a + 1 - kd.length) ++ ['='] := by
          calc (kd ++ (wd ++ ['='])).drop (a + 1)
              = (kd ++ (wd ++ ['='])).drop (kd.length + (a + 1 - kd.length)) := by
                rw [← hsplit]
            _ = (wd ++ ['=']).drop (a + 1 - kd.length) := List.drop_append _
            _ = wd.drop (a + 1 - kd.length) ++ ['='] :=
                List.drop_append_of_le_length (by omega)
        rw [hdrop, dropWhile_append_all (fun c hc => hw c (List.mem_of_mem_drop hc))]
        exact ih
      · have hdrop : (kd ++ (wd ++ ['='])).drop (a + 1) = [] :=
          List.drop_eq_nil_of_le
            (by simp only [List.length_append, List.length_cons, List.length_nil]; omega)
        rw [hdrop]
        exact ih

theorem takeWhile_append_stop {p : Char → Bool} {l1 : List Char} {d : Char}
    (h1 : ∀ c ∈ l1, p c = true) (hd : p d = false) (l2 : List Char) :
    (l1 ++ d :: l2).takeWhile p = l1 := by
  induction l1 with
  | nil =>
    rw [List.nil_append, List.takeWhile_cons, hd]
    simp
  | cons c l1' ih =>
    rw [List.cons_append, List.takeWhile_cons, h1 c (List.mem_cons_self c l1'), if_pos rfl,
      ih fun e he => h1 e (List.mem_cons_of_mem _ he)]

/-! ### Helper lemmas: line structure of the rendered directives -/

theorem string_data_append (s t : String) : (s ++ t).data = s.data ++ t.data := rfl

theorem splitLines_append {a : List Char} (ha : '\n' ∉ a) (b : List Char) :
    splitLines (a ++ '\n' :: b) = a :: splitLines b := by
  induction a with
  | nil => simp [splitLines]
  | cons c a' ih =>
    have hc : c ≠ '\n' := fun h => ha (h ▸ List.mem_cons_self c a')
    have ha' : '\n' ∉ a' := fun h => ha (List.mem_cons_of_mem _ h)
    simp only [List.cons_append, splitLines, if_neg hc, List.append_eq]
    rw [ih ha']

theorem splitLines_no_newline {a : List Char} (ha : '\n' ∉ a) : splitLines a = [a] := by
  induction a with
  | nil => rfl
  | cons c a' ih =>
    have hc : c ≠ '\n' := fun h => ha (h ▸ List.mem_cons_self c a')
    have ha' : '\n' ∉ a' := fun h => ha (List.mem_cons_of_mem _ h)
    simp only [splitLines, if_neg hc]
    rw [ih ha']

theorem splitLines_append2 {a b : List Char} (ha : '\n' ∉ a) (hb : '\n' ∉ b)
    (c : List Char) :
    splitLines (a ++ (b ++ '\n' :: c)) = (a ++ b) :: splitLines c := by
  rw [← List.append_assoc]
  apply splitLines_append
  intro hm
  rcases List.mem_append.mp hm with hm | hm
  · exact ha hm
  · exact hb hm

theorem splitLines_sep {a : List Char} (ha : '\n' ∉ a) (b : List Char) :
    splitLines (a ++ (['\n'] ++ b)) = a :: splitLines b :=
  splitLines_append ha b

theorem splitLines_sep2 {a b : List Char} (ha : '\n' ∉ a) (hb : '\n' ∉ b)
    (c : List Char) :
    splitLines (a ++ (b ++ (['\n'] ++ c))) = (a ++ b) :: splitLines c :=
  splitLines_append2 ha hb c

end QamelGen

namespace QamelGen

/-! ### Claim theorems -/

/-- C10: a key can never be bound to the empty string by parsing — `(.+)`
requires at least one character of value, so every parsed entry has a
non-empty value; and a line consisting of a key token (whitespace- and
`=`-free), optional whitespace, and a final `=` with nothing after it
matches nothing and adds no entry at all. -/
theorem parse_never_binds_empty_value :
    (∀ (lines : List String), ∀ p ∈ parseSymbols lines, p.2 ≠ "") ∧
    (∀ k w : String, k.data ≠ [] →
      (∀ c ∈ k.data, reSpace c = false ∧ c ≠ '=') →
      (∀ c ∈ w.data, reSpace c = true) →
      parseLine (k ++ w ++ "=") = none) := by
  constructor
  · exact fun lines p hp => (parseSymbols_values p hp).2
  · intro k w _ hkc hwc
    unfold parseLine
    have hdata : (k ++ w ++ "=").data = k.data ++ (w.data ++ ['=']) := by
      rw [show (k ++ w ++ "=").data = (k.data ++ w.data) ++ ['='] from rfl,
        List.append_assoc]
    have hm : matchMakefile (k ++ w ++ "=").data = none := by
      unfold matchMakefile
      rw [hdata]
      exact tryKeyLen_eq_none hkc hwc _
    rw [hm]

/-- C10 witness: `"A = 1"` parses to an entry with the non-empty value `"1"`,
and the lines `"A ="` (written `"A" ++ " " ++ "="`) match nothing. -/
theorem parse_never_binds_empty_value_witness :
    (("A", "1") : String × String).2 ≠ "" ∧ parseLine ("A" ++ " " ++ "=") = none :=
  ⟨parse_never_binds_empty_value.1 ["A = 1"] ("A", "1") (by decide),
   parse_never_binds_empty_value.2 "A" " " (by decide) (by decide) (by decide)⟩

/-- C1 (counterexample): with the table `{A: $(B), B: $(C), C: x}` the claim
says resolving always leaves `A = "$(C)"`; but when the `range` loop happens
to visit `B` before `A` (a legitimate order, since Go map iteration order is
unspecified), `B` has already been rewritten to `"x"` in place when `A` reads
it, so `A` resolves all the way to `"x"` ≠ `"$(C)"`. -/
theorem resolve_chain_can_resolve_two_hops :
    lookupTable (resolveReferences ["B", "A", "C"] chainTable) "A" = "x" ∧
    ("x" : String) ≠ "$(C)" := by decide

/-- C1 (amended): for `{A: $(B), B: $(C), C: x}` the value resolved for `A`
depends on the visit order of the in-place substitution pass: it is the
literal `"$(C)"` exactly when `A` is visited before `B` (placeholders are
replaced by the referenced key's value as currently stored, with no recursive
re-resolution within one step), and `"x"` when `B` has already been resolved
in place.  All six visit orders are covered. -/
theorem resolve_chain_value_by_order :
    lookupTable (resolveReferences ["A", "B", "C"] chainTable) "A" = "$(C)" ∧
    lookupTable (resolveReferences ["A", "C", "B"] chainTable) "A" = "$(C)" ∧
    lookupTable (resolveReferences ["C", "A", "B"] chainTable) "A" = "$(C)" ∧
    lookupTable (resolveReferences ["B", "A", "C"] chainTable) "A" = "x" ∧
    lookupTable (resolveReferences ["B", "C", "A"] chainTable) "A" = "x" ∧
    lookupTable (resolveReferences ["C", "B", "A"] chainTable) "A" = "x" := by decide

/-- C2 (counterexample): the rendered directive output of the
parse-resolve-render pipeline is not independent of the order in which the
substitution pass visits the table keys: on the input lines
`["CFLAGS = $(B)", "B = $(C)", "C = x"]` two legitimate visit orders give
different `#cgo` output, so two runs of the Go code (whose map iteration
order is deliberately randomised) need not agree. -/
theorem pipeline_output_depends_on_visit_order :
    cgoFlagsString
        (resolveReferences ["CFLAGS", "B", "C"]
          (parseSymbols ["CFLAGS = $(B)", "B = $(C)", "C = x"])) ≠
      cgoFlagsString
        (resolveReferences ["B", "CFLAGS", "C"]
          (parseSymbols ["CFLAGS = $(B)", "B = $(C)", "C = x"])) := by decide

/-- C2 (amended): the pipeline is deterministic as a function of the input
lines and of the key visit order, and the visit order can only matter through
values that contain variable references: on a table with unique keys whose
values contain no `$` (hence no `$(X)` reference), the substitution pass
gives the same resolved table under every visit order that ranges over the
keys, as Go's `range` does. -/
theorem resolve_order_irrelevant_without_refs (t : Table) (o1 o2 : List String)
    (hnd : (t.map Prod.fst).Nodup) (hnr : NoRef t)
    (h1 : List.Perm o1 (t.map Prod.fst)) (h2 : List.Perm o2 (t.map Prod.fst)) :
    resolveReferences o1 t = resolveReferences o2 t := by
  rw [resolve_eq_map_of_free o1 t (h1.nodup_iff.mpr hnd) hnd hnr,
    resolve_eq_map_of_free o2 t (h2.nodup_iff.mpr hnd) hnd hnr]
  apply List.map_congr_left
  intro p hp
  have hm1 : p.1 ∈ o1 := h1.mem_iff.mpr (List.mem_map.mpr ⟨p, hp, rfl⟩)
  have hm2 : p.1 ∈ o2 := h2.mem_iff.mpr (List.mem_map.mpr ⟨p, hp, rfl⟩)
  rw [if_pos hm1, if_pos hm2]

/-- C2 witness: a two-key reference-free table resolves identically under the
two opposite visit orders. -/
theorem resolve_order_irrelevant_without_refs_witness :
    resolveReferences ["K", "L"] [("K", "a"), ("L", "b")]
      = resolveReferences ["L", "K"] [("K", "a"), ("L", "b")] :=
  resolve_order_irrelevant_without_refs [("K", "a"), ("L", "b")] ["K", "L"] ["L", "K"]
    (by decide) (by unfold NoRef ValuesFree; decide) (by decide) (by decide)

/-- C3 (counterexample): the value stored at parse time is *not* trimmed of
trailing whitespace: the well-formed line `"A = 1 "` produces the entry
`("A", "1 ")`, whose value still carries the trailing blank (trimming only
happens later, inside the substitution pass). -/
theorem parse_value_keeps_trailing_whitespace :
    parseSymbols ["A = 1 "] = [("A", "1 ")] ∧ ("1 " : String) ≠ "1" := by decide

/-- C3 (amended): for a well-formed line `KEY = VALUE` — a non-empty
whitespace-free key, `" = "`, then a value that starts with a non-whitespace,
non-newline character — parsing yields exactly the entry `(KEY, VALUE)`: the
key carries no whitespace by construction, the whitespace around `=` is
consumed, and the value is the rest of the line with its trailing whitespace
preserved (the witness instantiates `VALUE` with `"1 "`). -/
theorem parseLine_wellformed_shape (k v : String)
    (hk : k.data ≠ [])
    (hkc : ∀ c ∈ k.data, reSpace c = false)
    (hv : v.data ≠ [])
    (hvh : reSpace (v.data.headD '-') = false)
    (hvn : '\n' ∉ v.data) :
    parseLine (k ++ " = " ++ v) = some (k, v) := by
  obtain ⟨c0, vrest, hvd⟩ := List.exists_cons_of_ne_nil hv
  have hc0 : reSpace c0 = false := by rw [hvd] at hvh; exact hvh
  obtain ⟨a, ha⟩ : ∃ a, k.data.length = a + 1 := by
    cases hkd : k.data with
    | nil => exact absurd hkd hk
    | cons c rest => exact ⟨rest.length, by simp [hkd]⟩
  have hdata : (k ++ " = " ++ v).data = k.data ++ (' ' :: '=' :: ' ' :: v.data) := by
    rw [show (k ++ " = " ++ v).data = (k.data ++ [' ', '=', ' ']) ++ v.data from rfl,
      List.append_assoc]
    rfl
  unfold parseLine matchMakefile
  rw [hdata]
  have hA : ((k.data ++ (' ' :: '=' :: ' ' :: v.data)).takeWhile
      fun c => !reSpace c).length = a + 1 := by
    rw [takeWhile_append_stop (fun c hc => by rw [hkc c hc]; rfl)
      (show (fun c => !reSpace c) ' ' = false from rfl) _, ha]
  rw [hA]
  unfold tryKeyLen
  have hdrop : (k.data ++ (' ' :: '=' :: ' ' :: v.data)).drop (a + 1)
      = ' ' :: '=' :: ' ' :: v.data := by
    rw [← ha]
    exact List.drop_left ..
  have hdw : List.dropWhile reSpace (' ' :: '=' :: ' ' :: v.data)
      = '=' :: ' ' :: v.data := by
    rw [List.dropWhile_cons, if_pos (show reSpace ' ' = true from rfl),
      List.dropWhile_cons, if_neg (show ¬reSpace '=' = true by decide)]
  rw [hdrop, hdw,
    if_pos (show ('=' :: ' ' :: v.data).head? = some '=' from rfl)]
  simp only [List.tail_cons]
  have hdwv : List.dropWhile reSpace v.data = v.data := by
    rw [hvd, List.dropWhile_cons, hc0]
    simp
  have hdsp : List.dropWhile reSpace (' ' :: v.data) = v.data := by
    rw [List.dropWhile_cons, if_pos (show reSpace ' ' = true from rfl), hdwv]
  have htv : tryValue (' ' :: v.data) = some v.data := by
    unfold tryValue
    rw [if_neg (show ¬(' ' :: v.data = []) by simp), hdsp, if_neg hv, if_neg hvn]
  rw [htv]
  have htake : (k.data ++ (' ' :: '=' :: ' ' :: v.data)).take (a + 1) = k.data := by
    rw [← ha]
    exact List.take_left ..
  rw [htake]

/-- C3 witness: the line `"A = 1 "` (trailing blank in the value) parses to
the entry `("A", "1 ")`, keeping the trailing whitespace. -/
theorem parseLine_wellformed_shape_witness :
    parseLine ("A" ++ " = " ++ "1 ") = some ("A", "1 ") :=
  parseLine_wellformed_shape "A" "1 " (by decide) (by decide) (by decide) (by decide)
    (by decide)

/-- C4: the corrective toolchain rule removes the literal
`" -Wa,-mbig-obj "` substring (with its surrounding spaces, one space being
put back) so that `"-O2 -Wa,-mbig-obj -Wall"` resolves to `"-O2 -Wall"`, and
whitespace is otherwise normalised only by trimming the ends of the final
value. -/
theorem patch_removes_bigobj_flag :
    lookupTable (resolveReferences ["CFLAGS"]
        [("CFLAGS", "-O2 -Wa,-mbig-obj -Wall")]) "CFLAGS" = "-O2 -Wall" ∧
    lookupTable (resolveReferences ["CFLAGS"]
        [("CFLAGS", "  -O2 -Wa,-mbig-obj -Wall  ")]) "CFLAGS" = "-O2 -Wall" := by decide

/-- C7: the substitution pass performs exactly one pass per key and always
returns; self-references and reference cycles degrade to literal
placeholders instead of looping: `{A: $(A)}` keeps `A = "$(A)"`, and the
two-key cycle `{A: $(B), B: $(A)}` ends with literal placeholders under
either visit order.  (Termination on every finite table and order is
witnessed by `resolveReferences` being a total function, defined by
structural recursion.) -/
theorem resolve_cycles_degrade_to_placeholders :
    resolveReferences ["A"] [("A", "$(A)")] = [("A", "$(A)")] ∧
    resolveReferences ["A", "B"] [("A", "$(B)"), ("B", "$(A)")] =
      [("A", "$(A)"), ("B", "$(A)")] ∧
    resolveReferences ["B", "A"] [("A", "$(B)"), ("B", "$(A)")] =
      [("A", "$(B)"), ("B", "$(B)")] := by decide

/-- C9: the substitution pass preserves the key set of the symbol table: for
every table and every visit order, the output table has exactly the same keys
in the same positions — substitution, patching and trimming only rewrite the
values. -/
theorem resolve_preserves_key_set (o : List String) (t : Table) :
    (resolveReferences o t).map Prod.fst = t.map Prod.fst :=
  keys_resolveReferences o t

/-- C5: for every symbol table produced by the parse-resolve pipeline
(including the empty one, and regardless of which keys are present), the
rendered directive string consists of exactly 7 lines in the fixed order
CFLAGS (from key `CFLAGS`), CXXFLAGS (from `CXXFLAGS`), CXXFLAGS (from
`INCPATH`), LDFLAGS (from `LFLAGS`), LDFLAGS (from `LIBS`), then the two
fixed warning-suppression lines; a missing key renders as an empty-valued
directive (`lookupTable` returns `""`) and never causes an error. -/
theorem rendered_flags_seven_lines (lines o : List String) :
    splitLines (cgoFlagsString (resolveReferences o (parseSymbols lines))).data =
      [("#cgo CFLAGS: " ++
          lookupTable (resolveReferences o (parseSymbols lines)) "CFLAGS").data,
       ("#cgo CXXFLAGS: " ++
          lookupTable (resolveReferences o (parseSymbols lines)) "CXXFLAGS").data,
       ("#cgo CXXFLAGS: " ++
          lookupTable (resolveReferences o (parseSymbols lines)) "INCPATH").data,
       ("#cgo LDFLAGS: " ++
          lookupTable (resolveReferences o (parseSymbols lines)) "LFLAGS").data,
       ("#cgo LDFLAGS: " ++
          lookupTable (resolveReferences o (parseSymbols lines)) "LIBS").data,
       ("#cgo CFLAGS: -Wno-unused-parameter -Wno-unused-variable -Wno-return-type" :
          String).data,
       ("#cgo CXXFLAGS: -Wno-unused-parameter -Wno-unused-variable -Wno-return-type" :
          String).data] ∧
    (splitLines (cgoFlagsString (resolveReferences o (parseSymbols lines))).data).length
      = 7 := by
  set t := resolveReferences o (parseSymbols lines) with ht
  have hv : ValuesFree '\n' t :=
    resolveReferences_valuesFree (by decide)
      (fun p hp => (parseSymbols_values p hp).1) o
  have l1 := not_mem_lookupTable hv "CFLAGS"
  have l2 := not_mem_lookupTable hv "CXXFLAGS"
  have l3 := not_mem_lookupTable hv "INCPATH"
  have l4 := not_mem_lookupTable hv "LFLAGS"
  have l5 := not_mem_lookupTable hv "LIBS"
  have h2 : splitLines (cgoFlagsString t).data =
      [("#cgo CFLAGS: " ++ lookupTable t "CFLAGS").data,
       ("#cgo CXXFLAGS: " ++ lookupTable t "CXXFLAGS").data,
       ("#cgo CXXFLAGS: " ++ lookupTable t "INCPATH").data,
       ("#cgo LDFLAGS: " ++ lookupTable t "LFLAGS").data,
       ("#cgo LDFLAGS: " ++ lookupTable t "LIBS").data,
       ("#cgo CFLAGS: -Wno-unused-parameter -Wno-unused-variable -Wno-return-type" :
          String).data,
       ("#cgo CXXFLAGS: -Wno-unused-parameter -Wno-unused-variable -Wno-return-type" :
          String).data] := by
    unfold cgoFlagsString
    simp only [string_data_append, List.append_assoc]
    rw [splitLines_sep2 (by decide) l1, splitLines_sep2 (by decide) l2,
      splitLines_sep2 (by decide) l3, splitLines_sep2 (by decide) l4,
      splitLines_sep2 (by decide) l5, splitLines_sep (by decide),
      splitLines_no_newline (by decide)]
  exact ⟨h2, by rw [h2]; rfl⟩

/-- C6: every reference `$(X)` to a key absent from the table is replaced by
the empty string (the Go zero value for a missing map key) and the final
value is then trimmed: `{A: "$(Z) tail"}` resolves `A` to `"tail"`, and on
the end-to-end input lines (with no `EXTRA` key) the value rendered for
`LIBS` is `"-lQt5Core"` — under every visit order of the substitution pass,
since `EXTRA` never becomes a key (key-set preservation). -/
theorem missing_reference_resolves_empty (o : List String)
    (ho : List.Perm o ["CFLAGS", "CXXFLAGS", "INCPATH", "LFLAGS", "LIBS"]) :
    lookupTable (resolveReferences ["A"] [("A", "$(Z) tail")]) "A" = "tail" ∧
    lookupTable (resolveReferences o (parseSymbols endToEndLines)) "LIBS"
      = "-lQt5Core" := by
  refine ⟨by decide, ?_⟩
  have hT : parseSymbols endToEndLines =
      [("CFLAGS", "-O2"), ("CXXFLAGS", "-std=c++11"),
       ("INCPATH", "-I/usr/include/qt"), ("LFLAGS", "-L/usr/lib"),
       ("LIBS", "-lQt5Core $(EXTRA)")] := by decide
  rw [hT]
  have hmem : "LIBS" ∈ o := ho.mem_iff.mpr (by decide)
  obtain ⟨o1, o2, rfl⟩ := List.append_of_mem hmem
  have hnd : (o1 ++ "LIBS" :: o2).Nodup := ho.nodup_iff.mpr (by decide)
  obtain ⟨-, hnd2, hdisj⟩ := List.nodup_append.mp hnd
  have h1 : "LIBS" ∉ o1 := fun hm => hdisj hm (List.mem_cons_self _ _)
  have h2 : "LIBS" ∉ o2 := (List.nodup_cons.mp hnd2).1
  rw [show resolveReferences (o1 ++ "LIBS" :: o2)
        [("CFLAGS", "-O2"), ("CXXFLAGS", "-std=c++11"),
         ("INCPATH", "-I/usr/include/qt"), ("LFLAGS", "-L/usr/lib"),
         ("LIBS", "-lQt5Core $(EXTRA)")]
      = resolveReferences o2 (resolveStep
          (resolveReferences o1
            [("CFLAGS", "-O2"), ("CXXFLAGS", "-std=c++11"),
             ("INCPATH", "-I/usr/include/qt"), ("LFLAGS", "-L/usr/lib"),
             ("LIBS", "-lQt5Core $(EXTRA)")]) "LIBS") by
    simp [resolveReferences, List.foldl_append]]
  set T1 := resolveReferences o1
    [("CFLAGS", "-O2"), ("CXXFLAGS", "-std=c++11"),
     ("INCPATH", "-I/usr/include/qt"), ("LFLAGS", "-L/usr/lib"),
     ("LIBS", "-lQt5Core $(EXTRA)")] with hT1
  have hfind : T1.find? (fun p => p.1 == "LIBS")
      = some ("LIBS", "-lQt5Core $(EXTRA)") := by
    rw [hT1, resolveReferences_find?_not_mem h1]
    decide
  have hextra : lookupTable T1 "EXTRA" = "" := by
    apply lookupTable_eq_empty
    rw [hT1, keys_resolveReferences]
    decide
  have hsub : substituteVars T1 ("-lQt5Core $(EXTRA)" : String).data
      = ("-lQt5Core " : String).data := by
    unfold substituteVars
    rw [show findAllVars ("-lQt5Core $(EXTRA)" : String).data
          = [("$(EXTRA)" : String).data] from rfl]
    simp only [List.foldl_cons, List.foldl_nil]
    rw [show String.mk (extractVarKey ("$(EXTRA)" : String).data) = "EXTRA" from rfl,
      hextra]
    rfl
  have hstep : resolveStep T1 "LIBS" = updateKey T1 "LIBS" "-lQt5Core" := by
    unfold resolveStep
    rw [hfind]
    dsimp only
    rw [hsub]
    rfl
  rw [hstep]
  unfold lookupTable
  rw [resolveReferences_find?_not_mem h2, find?_updateKey_self hfind]

/-- C6 witness: the end-to-end statement applied at the visit order in which
the keys appear in the input file. -/
theorem missing_reference_resolves_empty_witness :
    lookupTable (resolveReferences ["A"] [("A", "$(Z) tail")]) "A" = "tail" ∧
    lookupTable
        (resolveReferences ["CFLAGS", "CXXFLAGS", "INCPATH", "LFLAGS", "LIBS"]
          (parseSymbols endToEndLines)) "LIBS" = "-lQt5Core" :=
  missing_reference_resolves_empty
    ["CFLAGS", "CXXFLAGS", "INCPATH", "LFLAGS", "LIBS"] (List.Perm.refl _)

/-- C8: parsing is total and tolerant: the empty input yields the empty
table, lines that do not match the key/value pattern are silently skipped,
and matching lines set their key with overwrite (last write wins). -/
theorem parseSymbols_skips_malformed_lines :
    parseSymbols ([] : List String) = [] ∧
    parseSymbols ["not a kv line", "A = 1"] = [("A", "1")] ∧
    parseSymbols ["A = 1", "A = 2"] = [("A", "2")] := by decide

end QamelGen
